import Mathlib

/-!
Shallow embedding of the mojibake-repair scripts:
* `src/wallet/fix_encoding.py` — the replacements table, the sequential
  `str.replace` loop, the `fix_mojibake` / `fix_remaining_mojibake` re-decode
  heuristics, and the `re.sub(r'Ã[^\s<>]{1,20}', ...)` residual pass;
* `src/public/wallet/fix_all_files.py` — the per-file batch loop with its
  per-file try/except.

Python strings are modelled as `List Char` (one element per code point, as in
Python); byte strings as `List Nat` with each element < 256; a Python
`try/except` around a fallible conversion is modelled by `Option` (`none` =
the exception was raised inside the `try` block).
-/

set_option maxRecDepth 100000

namespace Mojibake

/-- The `replacements` dict of `src/wallet/fix_encoding.py` (lines 11-86), in
insertion order.  All 37 keys are distinct, so the Python dict keeps them all,
in this order. -/
def replacements : List (String × String) := [
  ("ÃƒÂ°Ã…Â¸Ã‚Â§Ã¢â€šÂ¬", "🧀"),
  ("ÃƒÂ°Ã…Â¸Ã…Â¸Ã‚Â¢", "🟢"),
  ("ÃƒÂ°Ã…Â¸Ã¢â‚¬ÂÃ‚Â´", "🔴"),
  ("ÃƒÂ°Ã…Â¸Ã¢â‚¬â„¢Ã‚Â°", "💰"),
  ("ÃƒÂ°Ã…Â¸Ã¢â‚¬â„¢Ã‚Â³", "💳"),
  ("ÃƒÂ°Ã…Â¸Ã…â€™Ã‚Â", "🌐"),
  ("ÃƒÂ°Ã…Â¸Ã¢â‚¬ÂÃ‚Âµ", "🔵"),
  ("ÃƒÂ°Ã…Â¸Ã¢â‚¬â„¢Ã…Â½", "💎"),
  ("ÃƒÂ°Ã…Â¸Ã‚ÂÃ‚Â¦", "🏦"),
  ("ÃƒÂ°Ã…Â¸Ã¢â‚¬ÂÃ…â€™", "🔒"),
  ("ÃƒÂ°Ã…Â¸Ã…â€™Ã¢â‚¬Â°", "🌉"),
  ("ÃƒÂ¢Ã…Â¾Ã¢â‚¬Â¢", "➕"),
  ("ÃƒÂ°Ã…Â¸Ã¢â‚¬â„¢Ã‚Â¸", "💸"),
  ("ÃƒÂ¢Ã…Â¡Ã‚Â ÃƒÂ¯Ã‚Â¸Ã‚Â", "⚠️"),
  ("ÃƒÂ¢Ã…Â¡Ã¢â€žÂ¢ÃƒÂ¯Ã‚Â¸Ã‚Â", "⚙️"),
  ("ÃƒÂ°Ã…Â¸Ã¢â‚¬ÂÃ¢â‚¬Ëœ", "🔐"),
  ("ÃƒÂ°Ã…Â¸Ã¢â‚¬Å\"Ã‚Â¥", "📥"),
  ("ÃƒÂ°Ã…Â¸Ã¢â‚¬ÂÃ¢â‚¬â„¢", "🔓"),
  ("ÃƒÂ°Ã…Â¸Ã¢â‚¬â€Ã¢â‚¬ËœÃƒÂ¯Ã‚Â¸Ã‚Â", "🗑️"),
  ("ÃƒÂ°Ã…Â¸Ã¢â‚¬Å\"Ã…Â ", "📠"),
  ("ÃƒÂ°Ã…Â¸Ã¢â‚¬ÂÃ¢â‚¬Å¾", "🔄"),
  ("ÃƒÂ°Ã…Â¸Ã¢â‚¬Å\"Ã¢â‚¬Â¹", "📋"),
  ("ÃƒÂ°Ã…Â¸Ã¢â‚¬Å\"Ã‚Â¤", "📤"),
  ("ÃƒÂ°Ã…Â¸Ã¢â‚¬Å\"Ã‚Â·", "📷"),
  ("ÃƒÂ¢Ã¢â‚¬ÂºÃ‚ÂÃƒÂ¯Ã‚Â¸Ã‚Â", "⛏️"),
  ("ÃƒÂ°Ã…Â¸Ã…Â¡Ã¢â€šÂ¬", "🚀"),
  ("ÃƒÂ¢Ã‚ÂÃ‚Â¹ÃƒÂ¯Ã‚Â¸Ã‚Â", "⏹️"),
  ("ÃƒÂ°Ã…Â¸Ã¢â‚¬ËœÃ¢â‚¬Â ", "👆"),
  ("ÃƒÂ¢Ã¢â‚¬Â°Ã‹â€ ", "≈"),
  ("ÃƒÂ¢Ã¢â‚¬Â¡Ã¢â‚¬Â¦", "⇦"),
  ("ÃƒÂ¢Ã¢â€šÂ¬Ã‚Â¢", "•"),
  ("ÃƒÂ¢Ã…â€œÃ¢â‚¬Â¦", "✅"),
  ("ÃƒÂ°Ã…Â¸Ã‚ÂÃ¢â€šÂ ", "🏠"),
  ("ÃƒÂ°Ã…Â¸Ã¢â‚¬ÂÃ‚Â§", "🔧"),
  ("ÃƒÂ°Ã…Â¸Ã¢â‚¬ÂÃ—", "🔗"),
  ("ÃƒÂ°Ã…Â¸Ã…Â¸Ã‚Â£", "🟣"),
  ("ÃƒÂ°Ã…Â¸Ã…â€™Ã‚Â ", "🌐")]

/-- Worker for `replaceAll`.  `skip` counts characters of the input that belong
to an occurrence already replaced and must be dropped before scanning resumes.
This lets the scan resume `needle.length` characters after each match while
staying structurally recursive on the text. -/
def raGo (needle repl : List Char) : Nat → List Char → List Char
  | _, [] => []
  | skip+1, _ :: rest => raGo needle repl skip rest
  | 0, c :: rest =>
    if needle.isPrefixOf (c :: rest) then
      repl ++ raGo needle repl (needle.length - 1) rest
    else
      c :: raGo needle repl 0 rest

/-- Python `text.replace(needle, repl)` for a non-empty `needle` (every key of
`replacements` is non-empty): scan left to right, replacing each occurrence of
`needle` by `repl` and resuming after the replaced occurrence. -/
def replaceAll (needle repl s : List Char) : List Char :=
  raGo needle repl 0 s

/-- The direct-replacement loop of `fix_encoding.py` (lines 98-99):
`for bad, good in replacements.items(): content = content.replace(bad, good)`. -/
def tablePass (table : List (String × String)) (s : List Char) : List Char :=
  table.foldl (fun acc p => replaceAll p.1.data p.2.data acc) s

/-- Python `text.encode('latin-1')`: each character of code point ≤ 0xFF
becomes that byte; any larger code point raises `UnicodeEncodeError` (`none`). -/
def encodeLatin1 : List Char → Option (List Nat)
  | [] => some []
  | c :: rest =>
    if c.toNat ≤ 0xFF then (encodeLatin1 rest).map (c.toNat :: ·)
    else none

/-- The 27 characters of the cp1252 0x80-0x9F block, as (code point, byte)
pairs; the five bytes 0x81, 0x8D, 0x8F, 0x90, 0x9D are undefined in cp1252. -/
def cp1252High : List (Nat × Nat) :=
  [(0x20AC, 0x80), (0x201A, 0x82), (0x0192, 0x83), (0x201E, 0x84), (0x2026, 0x85),
   (0x2020, 0x86), (0x2021, 0x87), (0x02C6, 0x88), (0x2030, 0x89), (0x0160, 0x8A),
   (0x2039, 0x8B), (0x0152, 0x8C), (0x017D, 0x8E), (0x2018, 0x91), (0x2019, 0x92),
   (0x201C, 0x93), (0x201D, 0x94), (0x2022, 0x95), (0x2013, 0x96), (0x2014, 0x97),
   (0x02DC, 0x98), (0x2122, 0x99), (0x0161, 0x9A), (0x203A, 0x9B), (0x0153, 0x9C),
   (0x017E, 0x9E), (0x0178, 0x9F)]

/-- The cp1252 encoding of a single character: ASCII and 0xA0-0xFF map to
themselves, the 27 characters of the cp1252 0x80-0x9F block map to their
byte, everything else (including raw U+0080-U+009F) is unencodable. -/
def cp1252Byte (c : Char) : Option Nat :=
  if c.toNat < 0x80 then some c.toNat
  else if 0xA0 ≤ c.toNat && c.toNat ≤ 0xFF then some c.toNat
  else List.lookup c.toNat cp1252High

/-- Python `text.encode('cp1252')`:  encode each character with `cp1252Byte`,
raising (`none`) on the first unencodable character. -/
def encodeCp1252 : List Char → Option (List Nat)
  | [] => some []
  | c :: rest =>
    match cp1252Byte c with
    | some b => (encodeCp1252 rest).map (b :: ·)
    | none => none

/-- UTF-8 continuation byte test: `0x80 ≤ b < 0xC0`. -/
def utf8Cont (b : Nat) : Bool := decide (0x80 ≤ b) && decide (b < 0xC0)

/-- Worker for `decodeUtf8`.  `skip` counts continuation bytes of an already
decoded sequence that must be dropped before decoding resumes (the same
structural-recursion device as in `raGo`).  Look-ahead uses `getD` with the
default `0xFF`, which never passes `utf8Cont`, so a truncated multi-byte
sequence fails exactly as in the strict Python decoder. -/
def duGo : Nat → List Nat → Option (List Char)
  | _, [] => some []
  | skip+1, _ :: bs => duGo skip bs
  | 0, b :: bs =>
    if b < 0x80 then
      (duGo 0 bs).map (fun cs => Char.ofNat b :: cs)
    else if b < 0xC2 then none
    else if b < 0xE0 then
      if utf8Cont (bs.getD 0 0xFF) then
        (duGo 1 bs).map (fun cs => Char.ofNat (0x40 * (b - 0xC0) + (bs.getD 0 0xFF - 0x80)) :: cs)
      else none
    else if b < 0xF0 then
      if utf8Cont (bs.getD 0 0xFF) && utf8Cont (bs.getD 1 0xFF)
          && decide (b = 0xE0 → 0xA0 ≤ bs.getD 0 0xFF)
          && decide (b = 0xED → bs.getD 0 0xFF < 0xA0) then
        (duGo 2 bs).map (fun cs =>
          Char.ofNat (0x1000 * (b - 0xE0) + 0x40 * (bs.getD 0 0xFF - 0x80)
            + (bs.getD 1 0xFF - 0x80)) :: cs)
      else none
    else if b < 0xF5 then
      if utf8Cont (bs.getD 0 0xFF) && utf8Cont (bs.getD 1 0xFF) && utf8Cont (bs.getD 2 0xFF)
          && decide (b = 0xF0 → 0x90 ≤ bs.getD 0 0xFF)
          && decide (b = 0xF4 → bs.getD 0 0xFF < 0x90) then
        (duGo 3 bs).map (fun cs =>
          Char.ofNat (0x40000 * (b - 0xF0) + 0x1000 * (bs.getD 0 0xFF - 0x80)
            + 0x40 * (bs.getD 1 0xFF - 0x80) + (bs.getD 2 0xFF - 0x80)) :: cs)
      else none
    else none

/-- Python `bytes.decode('utf-8')` (strict): rejects continuation bytes in lead
position, overlong encodings (leads 0xC0/0xC1, 0xE0 with next byte < 0xA0,
0xF0 with next byte < 0x90), surrogates (0xED with next byte ≥ 0xA0), code
points above U+10FFFF (leads ≥ 0xF5, 0xF4 with next byte ≥ 0x90) and truncated
sequences; `none` models the raised `UnicodeDecodeError`. -/
def decodeUtf8 (bs : List Nat) : Option (List Char) := duGo 0 bs

/-- `fix_mojibake` of `fix_encoding.py` (lines 89-95): one
`encode('latin-1').decode('utf-8')` attempt, returning the input when the
attempt raises.  (Defined in the script but never called by its main flow.) -/
def fix_mojibake (text : List Char) : List Char :=
  match (encodeLatin1 text).bind decodeUtf8 with
  | some fixed => fixed
  | none => text

/-- The latin-1 re-decode attempt of `fix_remaining_mojibake`
(`mojibake.encode('latin-1').decode('utf-8')`). -/
def latin1Attempt (m : List Char) : Option (List Char) :=
  (encodeLatin1 m).bind decodeUtf8

/-- The cp1252 re-decode attempt of `fix_remaining_mojibake`
(`mojibake.encode('cp1252').decode('utf-8')`). -/
def cp1252Attempt (m : List Char) : Option (List Char) :=
  (encodeCp1252 m).bind decodeUtf8

/-- `fix_remaining_mojibake` of `fix_encoding.py` (lines 103-114): try the
latin-1 → UTF-8 reinterpretation; on failure try cp1252 → UTF-8; on failure
return the matched fragment unchanged. -/
def fix_remaining_mojibake (mojibake : List Char) : List Char :=
  match latin1Attempt mojibake with
  | some fixed => fixed
  | none =>
    match cp1252Attempt mojibake with
    | some fixed => fixed
    | none => mojibake

/-- The set matched by `\s` in a Python 3 `str` regex: the characters for
which `Py_UNICODE_ISSPACE` holds (0x09-0x0D, 0x1C-0x1F, space, NEL, NBSP, and
the Unicode space separators). -/
def isPySpace (c : Char) : Bool :=
  let n := c.toNat
  (decide (0x9 ≤ n) && decide (n ≤ 0xD)) || (decide (0x1C ≤ n) && decide (n ≤ 0x1F))
    || n == 0x20 || n == 0x85 || n == 0xA0 || n == 0x1680
    || (decide (0x2000 ≤ n) && decide (n ≤ 0x200A))
    || n == 0x2028 || n == 0x2029 || n == 0x202F || n == 0x205F || n == 0x3000

/-- A character matched by `[^\s<>]` in the pattern `Ã[^\s<>]{1,20}`. -/
def isRunChar (c : Char) : Bool := !isPySpace c && c != '<' && c != '>'

/-- The longest prefix of at most `n` characters all matching `[^\s<>]` —
what the greedy `{1,20}` quantifier consumes (with `n = 20`). -/
def takeRun : Nat → List Char → List Char
  | 0, _ => []
  | _, [] => []
  | n+1, c :: rest => if isRunChar c then c :: takeRun n rest else []

/-- Worker for `regexPass`, modelling
`re.sub(r'Ã[^\s<>]{1,20}', fix_remaining_mojibake, content)`:  scan left to
right; at each `'Ã'` take the greedy run of up to 20 `[^\s<>]` characters; if
the run is non-empty the match `'Ã' :: run` is replaced by
`fix_remaining_mojibake` of it and the scan resumes after the match (`skip`
counts the remaining matched characters still to drop), otherwise there is no
match at this position and the scan moves one character forward. -/
def subGo : Nat → List Char → List Char
  | _, [] => []
  | skip+1, _ :: rest => subGo skip rest
  | 0, c :: rest =>
    if c = 'Ã' then
      match takeRun 20 rest with
      | [] => c :: subGo 0 rest
      | r :: run => fix_remaining_mojibake (c :: r :: run) ++ subGo (r :: run).length rest
    else c :: subGo 0 rest

/-- The residual regex pass of `fix_encoding.py` (lines 118-119). -/
def regexPass (s : List Char) : List Char := subGo 0 s

/-- The whole repair transform applied to the file content by
`fix_encoding.py`: the direct-replacement loop followed by the residual regex
pass.  (The spec's `repair(text, table)`.) -/
def repair (table : List (String × String)) (s : List Char) : List Char :=
  regexPass (tablePass table s)

/-- The spec's `countMarker` diagnostic (`content.count('Ã')` of the batch
script). -/
def countMarker (s : List Char) : Nat := s.count 'Ã'

/-- Number of occurrences of `needle` at any position of `s` (an occurrence
is counted at each starting position, so `occurs needle s = false` states that
`needle` occurs nowhere in `s`). -/
def occurs (needle : List Char) : List Char → Bool
  | [] => false
  | c :: rest => needle.isPrefixOf (c :: rest) || occurs needle rest

/-! ### Exception-level model of `fix_remaining_mojibake` and the regex pass

`Except Unit` makes exception propagation explicit: `.error ()` is an
uncaught exception crossing the function boundary.  `decodeAttempt` is one
`encode(...).decode('utf-8')` expression with no handler around it. -/

/-- One `mojibake.encode(enc).decode('utf-8')` expression: either of the two
steps may raise, and nothing here catches the exception. -/
def decodeAttempt (enc : List Char → Option (List Nat)) (m : List Char) :
    Except Unit (List Char) :=
  match enc m with
  | none => .error ()
  | some bs =>
    match decodeUtf8 bs with
    | none => .error ()
    | some cs => .ok cs

/-- `fix_remaining_mojibake` with its two nested `try/except` blocks made
explicit: the outer `except` falls through to the cp1252 attempt, the inner
`except` returns the fragment itself, so no exception escapes. -/
def fix_remaining_mojibakeE (m : List Char) : Except Unit (List Char) :=
  match decodeAttempt encodeLatin1 m with
  | .ok fixed => .ok fixed
  | .error _ =>
    match decodeAttempt encodeCp1252 m with
    | .ok fixed => .ok fixed
    | .error _ => .ok m

/-- The regex pass at the exception level: `re.sub` propagates any exception
raised by its replacement callback. -/
def subGoE : Nat → List Char → Except Unit (List Char)
  | _, [] => .ok []
  | skip+1, _ :: rest => subGoE skip rest
  | 0, c :: rest =>
    if c = 'Ã' then
      match takeRun 20 rest with
      | [] => (subGoE 0 rest).map (c :: ·)
      | r :: run =>
        match fix_remaining_mojibakeE (c :: r :: run) with
        | .error e => .error e
        | .ok fixed => (subGoE (r :: run).length rest).map (fixed ++ ·)
    else (subGoE 0 rest).map (c :: ·)

/-- The whole repair transform at the exception level. -/
def repairE (table : List (String × String)) (s : List Char) : Except Unit (List Char) :=
  subGoE 0 (tablePass table s)

/-! ### The batch script `src/public/wallet/fix_all_files.py`

The file system and the external `ftfy.fix_text` are abstracted as functions
of the environment; each may fail (`Except`), modelling a raised exception. -/

/-- The environment of the batch script: reading a file, `ftfy.fix_text`, and
writing a file, each of which may raise. -/
structure BatchEnv where
  readFile : String → Except String String
  fixText : String → Except String String
  writeFile : String → String → Except String Unit

/-- Outcome of one iteration of the batch loop for one file. -/
inductive FileEvent where
  | fixedReport (path : String) (before after : Nat)
  | skipped (path : String)
  | failed (path : String) (msg : String)
deriving DecidableEq, Repr

/-- The file a `FileEvent` is about. -/
def FileEvent.path : FileEvent → String
  | .fixedReport p _ _ => p
  | .skipped p => p
  | .failed p _ => p

/-- The body of the batch loop of `fix_all_files.py` (lines 10-32) for one
file: read, count `'Ã'` before, fix with ftfy, count after; if the before
count is positive, report and write the fixed content back; any exception
raised inside the `try` block yields the `except` branch (`failed`). -/
def processFile (env : BatchEnv) (filepath : String) : FileEvent :=
  match env.readFile filepath with
  | .error e => .failed filepath e
  | .ok content =>
    let beforeCount := countMarker content.data
    match env.fixText content with
    | .error e => .failed filepath e
    | .ok fixedContent =>
      let afterCount := countMarker fixedContent.data
      if 0 < beforeCount then
        match env.writeFile filepath fixedContent with
        | .error e => .failed filepath e
        | .ok _ => .fixedReport filepath beforeCount afterCount
      else .skipped filepath


/-- The batch loop `for filepath in files_to_fix: try: ... except: ...` —
every file is processed in order; the per-file `try/except` confines each
failure to its own iteration. -/
def runBatch (env : BatchEnv) : List String → List FileEvent
  | [] => []
  | filepath :: rest => processFile env filepath :: runBatch env rest

/-! ### Character-level helper lemmas -/

theorem char_eq_of_toNat_eq {a b : Char} (h : a.toNat = b.toNat) : a = b :=
  Char.ext (UInt32.ext h)

theorem char_ofNat_marker {n : Nat} (h : Char.ofNat n = 'Ã') : n = 0xC3 := by
  by_cases hv : n.isValidChar
  · have hh : (Char.ofNat n).toNat = n := by
      simp [Char.ofNat, hv, Char.ofNatAux, Char.toNat, UInt32.toNat]
    have h2 := congrArg Char.toNat h
    rw [hh] at h2
    exact h2
  · exfalso
    have hh : (Char.ofNat n).toNat = 0 := by
      simp [Char.ofNat, hv, Char.toNat, UInt32.toNat]
    have h2 := congrArg Char.toNat h
    rw [hh] at h2
    exact absurd h2 (by decide)

/-! ### Basic equations of `raGo` / `replaceAll` -/

theorem raGo_nil (needle repl : List Char) (k : Nat) : raGo needle repl k [] = [] := by
  cases k <;> rfl

theorem raGo_succ (needle repl : List Char) (k : Nat) (c : Char) (rest : List Char) :
    raGo needle repl (k+1) (c :: rest) = raGo needle repl k rest := rfl

theorem raGo_zero_pos {needle : List Char} (repl : List Char) {c : Char} {rest : List Char}
    (h : needle.isPrefixOf (c :: rest) = true) :
    raGo needle repl 0 (c :: rest) = repl ++ raGo needle repl (needle.length - 1) rest := by
  simp [raGo, h]

theorem raGo_zero_neg {needle : List Char} (repl : List Char) {c : Char} {rest : List Char}
    (h : needle.isPrefixOf (c :: rest) = false) :
    raGo needle repl 0 (c :: rest) = c :: raGo needle repl 0 rest := by
  simp [raGo, h]

theorem raGo_eq_drop (needle repl : List Char) :
    ∀ (s : List Char) (k : Nat), raGo needle repl k s = raGo needle repl 0 (s.drop k) := by
  intro s
  induction s with
  | nil => intro k; simp [raGo_nil]
  | cons c rest ih =>
    intro k
    cases k with
    | zero => rfl
    | succ k => rw [raGo_succ, ih k, List.drop_succ_cons]

/-! ### Length and count bounds for `replaceAll` -/

theorem raGo_length_le (needle repl : List Char) (hlen : repl.length ≤ needle.length) :
    ∀ (s : List Char) (k : Nat), (raGo needle repl k s).length ≤ (s.drop k).length := by
  intro s
  induction s with
  | nil => intro k; simp [raGo_nil]
  | cons c rest ih =>
    intro k
    cases k with
    | succ k => rw [raGo_succ, List.drop_succ_cons]; exact ih k
    | zero =>
      cases h : needle.isPrefixOf (c :: rest) with
      | true =>
        rw [raGo_zero_pos repl h]
        have hp : needle <+: c :: rest := List.isPrefixOf_iff_prefix.mp h
        have hle : needle.length ≤ rest.length + 1 := by simpa using hp.length_le
        have hr := ih (needle.length - 1)
        simp only [List.length_append, List.length_drop, List.drop_zero,
          List.length_cons] at *
        omega
      | false =>
        rw [raGo_zero_neg repl h]
        have hr := ih 0
        simp only [List.length_cons, List.drop_zero] at *
        omega

theorem replaceAll_length_le (needle repl : List Char) (hlen : repl.length ≤ needle.length)
    (s : List Char) : (replaceAll needle repl s).length ≤ s.length := by
  simpa using raGo_length_le needle repl hlen s 0

theorem raGo_count_le (needle repl : List Char) (ch : Char) (hne : needle ≠ [])
    (hc : repl.count ch ≤ needle.count ch) :
    ∀ (s : List Char) (k : Nat), (raGo needle repl k s).count ch ≤ (s.drop k).count ch := by
  intro s
  induction s with
  | nil => intro k; simp [raGo_nil]
  | cons c rest ih =>
    intro k
    cases k with
    | succ k => rw [raGo_succ, List.drop_succ_cons]; exact ih k
    | zero =>
      cases h : needle.isPrefixOf (c :: rest) with
      | true =>
        rw [raGo_zero_pos repl h, List.drop_zero]
        have hp : needle <+: c :: rest := List.isPrefixOf_iff_prefix.mp h
        obtain ⟨t, ht⟩ := hp
        cases needle with
        | nil => exact absurd rfl hne
        | cons n0 ntl =>
          have hrest : rest = ntl ++ t := by
            have := ht
            simp only [List.cons_append, List.cons.injEq] at this
            exact this.2.symm
          have hdrop : rest.drop ((n0 :: ntl).length - 1) = t := by
            simp only [List.length_cons, Nat.add_sub_cancel, hrest]
            exact List.drop_left ntl t
          have hr := ih ((n0 :: ntl).length - 1)
          rw [hdrop] at hr
          rw [List.count_append, ← ht, List.count_append]
          omega
      | false =>
        rw [raGo_zero_neg repl h, List.drop_zero]
        have hr := ih 0
        rw [List.drop_zero] at hr
        simp only [List.count_cons]
        omega

/-! ### Occurrence lemmas -/

theorem occurs_eq_false_cons {needle c rest} (h : occurs needle (c :: rest) = false) :
    needle.isPrefixOf (c :: rest) = false ∧ occurs needle rest = false := by
  simpa [occurs] using h

theorem substr_of_occurs {needle : List Char} :
    ∀ {s : List Char}, occurs needle s = true → needle <:+: s := by
  intro s
  induction s with
  | nil => intro h; simp [occurs] at h
  | cons c rest ih =>
    intro h
    simp only [occurs, Bool.or_eq_true] at h
    rcases h with h | h
    · exact (List.isPrefixOf_iff_prefix.mp h).isInfix
    · exact List.infix_cons (ih h)

theorem occurs_eq_false_of_not_substr {needle s : List Char} (h : ¬ needle <:+: s) :
    occurs needle s = false := by
  cases ho : occurs needle s with
  | false => rfl
  | true => exact absurd (substr_of_occurs ho) h

theorem occurs_of_substr {needle s : List Char} (hne : needle ≠ []) (h : needle <:+: s) :
    occurs needle s = true := by
  obtain ⟨t, u, rfl⟩ := h
  induction t with
  | nil =>
    cases needle with
    | nil => exact absurd rfl hne
    | cons n0 ntl =>
      have hp : (n0 :: ntl).isPrefixOf ((n0 :: ntl) ++ u) = true :=
        List.isPrefixOf_iff_prefix.mpr (List.prefix_append _ _)
      simp only [List.nil_append, List.cons_append] at *
      simp [occurs, hp]
  | cons a t ih =>
    simp only [occurs, List.cons_append, List.append_eq, ih, Bool.or_true]

theorem occurs_eq_false_of_mem_not_mem {ch : Char} {needle s : List Char}
    (hin : ch ∈ needle) (hout : ch ∉ s) : occurs needle s = false := by
  cases ho : occurs needle s with
  | false => rfl
  | true => exact absurd ((substr_of_occurs ho).subset hin) hout

theorem raGo_eq_drop_of_no_occurs (needle repl : List Char) :
    ∀ (s : List Char) (k : Nat), occurs needle s = false → raGo needle repl k s = s.drop k := by
  intro s
  induction s with
  | nil => intro k _; simp [raGo_nil]
  | cons c rest ih =>
    intro k h
    obtain ⟨h1, h2⟩ := occurs_eq_false_cons h
    cases k with
    | succ k => rw [raGo_succ, List.drop_succ_cons]; exact ih k h2
    | zero => rw [raGo_zero_neg repl h1, List.drop_zero, ih 0 h2, List.drop_zero]

theorem replaceAll_eq_of_no_occurs {needle repl s : List Char}
    (h : occurs needle s = false) : replaceAll needle repl s = s := by
  simpa using raGo_eq_drop_of_no_occurs needle repl s 0 h

/-! ### `replaceAll` leaves no occurrence of its needle behind

Valid whenever the replacement is non-empty and shares no character with the
needle — which holds for every entry of `replacements`, whose keys are
mojibake characters and whose values are emoji. -/

theorem occurs_append_left {needle : List Char} (pre : List Char) (X : List Char)
    (hne : needle ≠ []) (hpre : ∀ a ∈ pre, a ∉ needle) :
    occurs needle (pre ++ X) = occurs needle X := by
  induction pre with
  | nil => rfl
  | cons a pre ih =>
    simp only [List.cons_append, occurs, List.append_eq]
    have h1 : needle.isPrefixOf (a :: (pre ++ X)) = false := by
      cases needle with
      | nil => exact absurd rfl hne
      | cons n0 ntl =>
        have ha : a ∉ n0 :: ntl := hpre a (List.mem_cons_self _ _)
        have hn0 : (n0 == a) = false :=
          beq_eq_false_iff_ne.mpr (fun he => ha (he ▸ List.mem_cons_self _ _))
        simp [List.isPrefixOf, hn0]
    rw [h1, Bool.false_or]
    exact ih (fun x hx => hpre x (List.mem_cons_of_mem _ hx))

theorem prefix_transfer_raGo {needle repl : List Char} (hrne : repl ≠ [])
    (hdisj : ∀ a ∈ repl, a ∉ needle) :
    ∀ (s : List Char) (k : Nat) (sub : List Char), (∀ x ∈ sub, x ∈ needle) →
      sub <+: raGo needle repl k s → sub <+: s.drop k := by
  intro s
  induction s with
  | nil =>
    intro k sub _ hp
    rw [raGo_nil] at hp
    rw [List.prefix_nil] at hp
    subst hp
    exact List.nil_prefix
  | cons c rest ih =>
    intro k sub hsub hp
    cases k with
    | succ k =>
      rw [raGo_succ] at hp
      rw [List.drop_succ_cons]
      exact ih k sub hsub hp
    | zero =>
      rw [List.drop_zero]
      cases h : needle.isPrefixOf (c :: rest) with
      | true =>
        rw [raGo_zero_pos repl h] at hp
        cases sub with
        | nil => exact List.nil_prefix
        | cons x sub' =>
          cases repl with
          | nil => exact absurd rfl hrne
          | cons r0 repl' =>
            rw [List.cons_append, List.cons_prefix_cons] at hp
            obtain ⟨rfl, -⟩ := hp
            exact absurd (hsub x (List.mem_cons_self _ _))
              (hdisj x (List.mem_cons_self _ _))
      | false =>
        rw [raGo_zero_neg repl h] at hp
        cases sub with
        | nil => exact List.nil_prefix
        | cons x sub' =>
          rw [List.cons_prefix_cons] at hp
          obtain ⟨rfl, hp'⟩ := hp
          have hs' := ih 0 sub' (fun y hy => hsub y (List.mem_cons_of_mem _ hy)) hp'
          rw [List.drop_zero] at hs'
          exact List.cons_prefix_cons.mpr ⟨rfl, hs'⟩

theorem raGo_no_occurs {needle repl : List Char} (hne : needle ≠ []) (hrne : repl ≠ [])
    (hdisj : ∀ a ∈ repl, a ∉ needle) :
    ∀ (s : List Char) (k : Nat), occurs needle (raGo needle repl k s) = false := by
  intro s
  induction s with
  | nil => intro k; rw [raGo_nil]; rfl
  | cons c rest ih =>
    intro k
    cases k with
    | succ k => rw [raGo_succ]; exact ih k
    | zero =>
      cases h : needle.isPrefixOf (c :: rest) with
      | true =>
        rw [raGo_zero_pos repl h, occurs_append_left repl _ hne hdisj]
        exact ih _
      | false =>
        rw [raGo_zero_neg repl h]
        simp only [occurs, Bool.or_eq_false_iff]
        refine ⟨?_, ih 0⟩
        cases needle with
        | nil => exact absurd rfl hne
        | cons n0 ntl =>
          by_cases hc : n0 = c
          · subst hc
            cases hq : ntl.isPrefixOf (raGo (n0 :: ntl) repl 0 rest) with
            | false => simp [List.isPrefixOf, hq]
            | true =>
              exfalso
              have h1 : ntl <+: raGo (n0 :: ntl) repl 0 rest :=
                List.isPrefixOf_iff_prefix.mp hq
              have h2 := prefix_transfer_raGo hrne hdisj rest 0 ntl
                (fun x hx => List.mem_cons_of_mem _ hx) h1
              rw [List.drop_zero] at h2
              have h3 : (n0 :: ntl).isPrefixOf (n0 :: rest) = true :=
                List.isPrefixOf_iff_prefix.mpr (List.cons_prefix_cons.mpr ⟨rfl, h2⟩)
              rw [h3] at h
              exact Bool.noConfusion h
          · have hn0 : (n0 == c) = false := beq_eq_false_iff_ne.mpr hc
            simp [List.isPrefixOf, hn0]

theorem replaceAll_no_occurs {needle repl : List Char} (hne : needle ≠ [])
    (hrne : repl ≠ []) (hdisj : ∀ a ∈ repl, a ∉ needle) (s : List Char) :
    occurs needle (replaceAll needle repl s) = false :=
  raGo_no_occurs hne hrne hdisj s 0

/-! ### Fold lemmas for the replacement loop -/

theorem tablePass_nil (table : List (String × String)) : tablePass table [] = [] := by
  induction table with
  | nil => rfl
  | cons p table ih =>
    show tablePass table (replaceAll p.1.data p.2.data []) = []
    rw [show replaceAll p.1.data p.2.data [] = [] from raGo_nil _ _ 0]
    exact ih

theorem tablePass_cons (p : String × String) (table : List (String × String))
    (s : List Char) :
    tablePass (p :: table) s = tablePass table (replaceAll p.1.data p.2.data s) := rfl

theorem tablePass_length_le_gen (table : List (String × String))
    (h : ∀ p ∈ table, p.2.data.length ≤ p.1.data.length) :
    ∀ s, (tablePass table s).length ≤ s.length := by
  induction table with
  | nil => intro s; exact le_refl _
  | cons p table ih =>
    intro s
    rw [tablePass_cons]
    calc (tablePass table (replaceAll p.1.data p.2.data s)).length
        ≤ (replaceAll p.1.data p.2.data s).length :=
          ih (fun q hq => h q (List.mem_cons_of_mem _ hq)) _
      _ ≤ s.length :=
          replaceAll_length_le _ _ (h p (List.mem_cons_self _ _)) s

theorem tablePass_count_le_gen (table : List (String × String)) (ch : Char)
    (h : ∀ p ∈ table, p.1.data ≠ [] ∧ p.2.data.count ch ≤ p.1.data.count ch) :
    ∀ s, (tablePass table s).count ch ≤ s.count ch := by
  induction table with
  | nil => intro s; exact le_refl _
  | cons p table ih =>
    intro s
    rw [tablePass_cons]
    calc (tablePass table (replaceAll p.1.data p.2.data s)).count ch
        ≤ (replaceAll p.1.data p.2.data s).count ch :=
          ih (fun q hq => h q (List.mem_cons_of_mem _ hq)) _
      _ ≤ s.count ch := by
          have hp := h p (List.mem_cons_self _ _)
          simpa using raGo_count_le p.1.data p.2.data ch hp.1 hp.2 s 0

theorem tablePass_eq_of_no_occurs (table : List (String × String)) (s : List Char)
    (h : ∀ p ∈ table, occurs p.1.data s = false) : tablePass table s = s := by
  induction table with
  | nil => rfl
  | cons p table ih =>
    rw [tablePass_cons, replaceAll_eq_of_no_occurs (h p (List.mem_cons_self _ _))]
    exact ih (fun q hq => h q (List.mem_cons_of_mem _ hq))

theorem tablePass_eq_of_no_marker (table : List (String × String)) (s : List Char)
    (hk : ∀ p ∈ table, 'Ã' ∈ p.1.data) (hs : 'Ã' ∉ s) : tablePass table s = s :=
  tablePass_eq_of_no_occurs table s
    (fun p hp => occurs_eq_false_of_mem_not_mem (hk p hp) hs)

/-! ### Lemmas about the residual regex pass -/

theorem takeRun_isPre : ∀ (n : Nat) (l : List Char), takeRun n l <+: l := by
  intro n
  induction n with
  | zero =>
    intro l
    have h0 : takeRun 0 l = [] := by cases l <;> rfl
    rw [h0]
    exact List.nil_prefix
  | succ n ih =>
    intro l
    cases l with
    | nil => exact List.nil_prefix
    | cons c rest =>
      by_cases hc : isRunChar c
      · simp only [takeRun, hc, if_true]
        exact List.cons_prefix_cons.mpr ⟨rfl, ih rest⟩
      · simp only [takeRun, hc, if_false]
        exact List.nil_prefix

theorem takeRun_append_drop (n : Nat) (l : List Char) :
    takeRun n l ++ l.drop (takeRun n l).length = l := by
  obtain ⟨t, ht⟩ := takeRun_isPre n l
  set r := takeRun n l with hr
  rw [← ht, List.drop_left]

theorem subGo_nil (k : Nat) : subGo k [] = [] := by cases k <;> rfl

theorem subGo_succ (k : Nat) (c : Char) (rest : List Char) :
    subGo (k+1) (c :: rest) = subGo k rest := rfl

theorem subGo_zero_match {rest : List Char} {r : Char} {run : List Char}
    (hr : takeRun 20 rest = r :: run) :
    subGo 0 ('Ã' :: rest) =
      fix_remaining_mojibake ('Ã' :: r :: run) ++ subGo (r :: run).length rest := by
  simp [subGo, hr]

theorem subGo_zero_nomatch {rest : List Char} (hr : takeRun 20 rest = []) :
    subGo 0 ('Ã' :: rest) = 'Ã' :: subGo 0 rest := by
  simp [subGo, hr]

theorem subGo_zero_other {c : Char} {rest : List Char} (hc : c ≠ 'Ã') :
    subGo 0 (c :: rest) = c :: subGo 0 rest := by
  simp [subGo, hc]

theorem subGo_eq_drop_of_no_marker :
    ∀ (s : List Char) (k : Nat), 'Ã' ∉ s → subGo k s = s.drop k := by
  intro s
  induction s with
  | nil => intro k _; simp [subGo_nil]
  | cons c rest ih =>
    intro k h
    have hc : c ≠ 'Ã' := fun he => h (he ▸ List.mem_cons_self _ _)
    have hrest : 'Ã' ∉ rest := fun he => h (List.mem_cons_of_mem _ he)
    cases k with
    | succ k => rw [subGo_succ, List.drop_succ_cons]; exact ih k hrest
    | zero => rw [subGo_zero_other hc, List.drop_zero, ih 0 hrest, List.drop_zero]

theorem regexPass_eq_of_no_marker {s : List Char} (h : 'Ã' ∉ s) : regexPass s = s := by
  simpa [regexPass] using subGo_eq_drop_of_no_marker s 0 h

/-! ### The exception-level model agrees with the plain model and never errors -/

theorem decodeAttempt_latin1_eq (m : List Char) :
    decodeAttempt encodeLatin1 m =
      match latin1Attempt m with
      | some cs => .ok cs
      | none => .error () := by
  unfold decodeAttempt latin1Attempt
  rcases he : encodeLatin1 m with _ | bs
  · rfl
  · rcases hd : decodeUtf8 bs with _ | cs <;> simp [hd]

theorem decodeAttempt_cp1252_eq (m : List Char) :
    decodeAttempt encodeCp1252 m =
      match cp1252Attempt m with
      | some cs => .ok cs
      | none => .error () := by
  unfold decodeAttempt cp1252Attempt
  rcases he : encodeCp1252 m with _ | bs
  · rfl
  · rcases hd : decodeUtf8 bs with _ | cs <;> simp [hd]

theorem fixE_ok (m : List Char) :
    fix_remaining_mojibakeE m = .ok (fix_remaining_mojibake m) := by
  unfold fix_remaining_mojibakeE fix_remaining_mojibake
  rw [decodeAttempt_latin1_eq, decodeAttempt_cp1252_eq]
  rcases latin1Attempt m with _ | f
  · rcases cp1252Attempt m with _ | g <;> rfl
  · rfl

theorem subGoE_ok : ∀ (s : List Char) (k : Nat), subGoE k s = .ok (subGo k s) := by
  intro s
  induction s with
  | nil => intro k; cases k <;> rfl
  | cons c rest ih =>
    intro k
    cases k with
    | succ k => exact ih k
    | zero =>
      by_cases hc : c = 'Ã'
      · subst hc
        rcases hr : takeRun 20 rest with _ | ⟨r, run⟩
        · simp [subGoE, subGo, hr, ih, Except.map]
        · simp [subGoE, subGo, hr, fixE_ok, ih, Except.map]
      · simp [subGoE, subGo, hc, ih, Except.map]

/-! ### Marker-count bounds for the re-decode heuristic

A decoded `'Ã'` (U+00C3) can only come from the byte pair `0xC3 0x83`, whose
lead byte `0xC3` in turn can only come from an input `'Ã'` under either
single-byte encoding; hence re-decoding never increases the number of
markers. -/

theorem encodeLatin1_count_marker :
    ∀ (m : List Char) (bs : List Nat), encodeLatin1 m = some bs →
      bs.count 0xC3 ≤ m.count 'Ã' := by
  intro m
  induction m with
  | nil =>
    intro bs h
    obtain rfl : ([] : List Nat) = bs := by simpa [encodeLatin1] using h
    simp
  | cons c rest ih =>
    intro bs h
    simp only [encodeLatin1] at h
    by_cases hc : c.toNat ≤ 0xFF
    · rw [if_pos hc] at h
      obtain ⟨bs0, hbs0, rfl⟩ := Option.map_eq_some'.mp h
      have hih := ih bs0 hbs0
      by_cases hb : c.toNat = 0xC3
      · have hcc : c = 'Ã' := char_eq_of_toNat_eq (by rw [hb]; rfl)
        subst hcc
        rw [hb, List.count_cons_self, List.count_cons_self]
        omega
      · have hcc : c ≠ 'Ã' := fun he => hb (by rw [he]; rfl)
        rw [List.count_cons_of_ne (Ne.symm hb), List.count_cons_of_ne (Ne.symm hcc)]
        omega
    · rw [if_neg hc] at h
      exact absurd h (by simp)

theorem lookup_snd_lt {l : List (Nat × Nat)} (hb : ∀ p ∈ l, p.2 < 0xA0) :
    ∀ {k v : Nat}, List.lookup k l = some v → v < 0xA0 := by
  induction l with
  | nil => intro k v h; simp [List.lookup] at h
  | cons p l ih =>
    intro k v h
    obtain ⟨a, b⟩ := p
    simp only [List.lookup] at h
    rcases hk : k == a with _ | _
    · rw [hk] at h
      exact ih (fun q hq => hb q (List.mem_cons_of_mem _ hq)) h
    · rw [hk] at h
      injection h with h
      subst h
      exact hb (a, b) (List.mem_cons_self _ _)

theorem cp1252Byte_marker {c : Char} (h : cp1252Byte c = some 0xC3) : c = 'Ã' := by
  have hn : c.toNat = 0xC3 := by
    unfold cp1252Byte at h
    by_cases h1 : c.toNat < 0x80
    · rw [if_pos h1] at h
      exact Option.some.inj h
    · rw [if_neg h1] at h
      by_cases h2 : (0xA0 ≤ c.toNat && c.toNat ≤ 0xFF) = true
      · rw [if_pos h2] at h
        exact Option.some.inj h
      · rw [if_neg h2] at h
        have := lookup_snd_lt (by decide : ∀ p ∈ cp1252High, p.2 < 0xA0) h
        omega
  exact char_eq_of_toNat_eq (by rw [hn]; rfl)

theorem encodeCp1252_count_marker :
    ∀ (m : List Char) (bs : List Nat), encodeCp1252 m = some bs →
      bs.count 0xC3 ≤ m.count 'Ã' := by
  intro m
  induction m with
  | nil =>
    intro bs h
    obtain rfl : ([] : List Nat) = bs := by simpa [encodeCp1252] using h
    simp
  | cons c rest ih =>
    intro bs h
    simp only [encodeCp1252] at h
    rcases hb : cp1252Byte c with _ | b
    · rw [hb] at h
      exact absurd h (by simp)
    · rw [hb] at h
      obtain ⟨bs0, hbs0, rfl⟩ := Option.map_eq_some'.mp h
      have hih := ih bs0 hbs0
      by_cases hbc : b = 0xC3
      · have hcc : c = 'Ã' := cp1252Byte_marker (hbc ▸ hb)
        subst hcc
        subst hbc
        rw [List.count_cons_self, List.count_cons_self]
        omega
      · rw [List.count_cons_of_ne (Ne.symm hbc), List.count_cons]
        split_ifs <;> omega

theorem duGo_nil (k : Nat) : duGo k [] = some [] := by cases k <;> rfl

theorem duGo_succ (k b : Nat) (bs : List Nat) : duGo (k+1) (b :: bs) = duGo k bs := rfl

theorem duGo_count_le :
    ∀ (bs : List Nat) (k : Nat) (cs : List Char), duGo k bs = some cs →
      cs.count 'Ã' ≤ (bs.drop k).count 0xC3 := by
  intro bs
  induction bs with
  | nil =>
    intro k cs h
    rw [duGo_nil] at h
    injection h with h
    subst h
    simp
  | cons b bs ih =>
    intro k cs h
    cases k with
    | succ k =>
      rw [duGo_succ, List.drop_succ_cons] at *
      exact ih k cs h
    | zero =>
      rw [List.drop_zero]
      unfold duGo at h
      by_cases h1 : b < 0x80
      · rw [if_pos h1] at h
        obtain ⟨cs0, hdec, rfl⟩ := Option.map_eq_some'.mp h
        have hih := ih 0 cs0 hdec
        rw [List.drop_zero] at hih
        have hne : Char.ofNat b ≠ 'Ã' := fun he => by
          have := char_ofNat_marker he; omega
        rw [List.count_cons_of_ne (Ne.symm hne),
          List.count_cons_of_ne (by omega : (0xC3 : Nat) ≠ b)]
        exact hih
      · rw [if_neg h1] at h
        by_cases h2 : b < 0xC2
        · rw [if_pos h2] at h
          exact Option.noConfusion h
        · rw [if_neg h2] at h
          by_cases h3 : b < 0xE0
          · -- two-byte sequence
            rw [if_pos h3] at h
            rcases hcond : utf8Cont (bs.getD 0 0xFF) with _ | _
            · rw [hcond, if_neg (by simp)] at h
              exact Option.noConfusion h
            · rw [hcond, if_pos rfl] at h
              obtain ⟨cs0, hdec, rfl⟩ := Option.map_eq_some'.mp h
              rcases bs with _ | ⟨b1, bsr⟩
              · simp [List.getD, utf8Cont] at hcond
              · simp only [List.getD_cons_zero] at hcond ⊢
                have hih := ih 1 cs0 hdec
                rw [List.drop_succ_cons, List.drop_zero] at hih
                have hb1 : 0x80 ≤ b1 ∧ b1 < 0xC0 := by simpa [utf8Cont] using hcond
                by_cases hch : Char.ofNat (0x40 * (b - 0xC0) + (b1 - 0x80)) = 'Ã'
                · have hcp := char_ofNat_marker hch
                  have hb0 : b = 0xC3 := by omega
                  have hb1' : b1 = 0x83 := by omega
                  subst hb0
                  subst hb1'
                  rw [hch, List.count_cons_self, List.count_cons_self,
                    List.count_cons_of_ne (by omega : (0xC3 : Nat) ≠ 0x83)]
                  omega
                · rw [List.count_cons_of_ne (Ne.symm hch), List.count_cons,
                    List.count_cons]
                  split_ifs <;> omega
          · rw [if_neg h3] at h
            by_cases h4 : b < 0xF0
            · -- three-byte sequence
              rw [if_pos h4] at h
              rcases hcond : utf8Cont (bs.getD 0 0xFF) && utf8Cont (bs.getD 1 0xFF)
                  && decide (b = 0xE0 → 0xA0 ≤ bs.getD 0 0xFF)
                  && decide (b = 0xED → bs.getD 0 0xFF < 0xA0) with _ | _
              · rw [hcond, if_neg (by simp)] at h
                exact Option.noConfusion h
              · rw [hcond, if_pos rfl] at h
                obtain ⟨cs0, hdec, rfl⟩ := Option.map_eq_some'.mp h
                rcases bs with _ | ⟨b1, bsA⟩
                · simp [List.getD, utf8Cont] at hcond
                rcases bsA with _ | ⟨b2, bsr⟩
                · simp [List.getD, utf8Cont] at hcond
                simp only [List.getD_cons_zero, List.getD_cons_succ] at hcond ⊢
                have hih := ih 2 cs0 hdec
                rw [List.drop_succ_cons, List.drop_succ_cons, List.drop_zero] at hih
                have hg' : (0x80 ≤ b1 ∧ b1 < 0xC0) ∧ (0x80 ≤ b2 ∧ b2 < 0xC0) ∧
                    (b = 0xE0 → 0xA0 ≤ b1) := by
                  simp only [Bool.and_eq_true, decide_eq_true_eq, utf8Cont] at hcond
                  tauto
                obtain ⟨⟨hb1a, hb1b⟩, ⟨hb2a, hb2b⟩, hE0⟩ := hg'
                have hch : Char.ofNat (0x1000 * (b - 0xE0) + 0x40 * (b1 - 0x80)
                    + (b2 - 0x80)) ≠ 'Ã' := by
                  intro he
                  have hcp := char_ofNat_marker he
                  rcases Nat.lt_or_ge b 0xE1 with hbe | hbe
                  · have := hE0 (by omega)
                    omega
                  · omega
                rw [List.count_cons_of_ne (Ne.symm hch), List.count_cons,
                  List.count_cons, List.count_cons]
                split_ifs <;> omega
            · rw [if_neg h4] at h
              by_cases h5 : b < 0xF5
              · -- four-byte sequence
                rw [if_pos h5] at h
                rcases hcond : utf8Cont (bs.getD 0 0xFF) && utf8Cont (bs.getD 1 0xFF)
                    && utf8Cont (bs.getD 2 0xFF)
                    && decide (b = 0xF0 → 0x90 ≤ bs.getD 0 0xFF)
                    && decide (b = 0xF4 → bs.getD 0 0xFF < 0x90) with _ | _
                · rw [hcond, if_neg (by simp)] at h
                  exact Option.noConfusion h
                · rw [hcond, if_pos rfl] at h
                  obtain ⟨cs0, hdec, rfl⟩ := Option.map_eq_some'.mp h
                  rcases bs with _ | ⟨b1, bsA⟩
                  · simp [List.getD, utf8Cont] at hcond
                  rcases bsA with _ | ⟨b2, bsB⟩
                  · simp [List.getD, utf8Cont] at hcond
                  rcases bsB with _ | ⟨b3, bsr⟩
                  · simp [List.getD, utf8Cont] at hcond
                  simp only [List.getD_cons_zero, List.getD_cons_succ] at hcond ⊢
                  have hih := ih 3 cs0 hdec
                  rw [List.drop_succ_cons, List.drop_succ_cons, List.drop_succ_cons,
                    List.drop_zero] at hih
                  have hg' : (0x80 ≤ b1 ∧ b1 < 0xC0) ∧ (0x80 ≤ b2 ∧ b2 < 0xC0) ∧
                      (0x80 ≤ b3 ∧ b3 < 0xC0) ∧ (b = 0xF0 → 0x90 ≤ b1) := by
                    simp only [Bool.and_eq_true, decide_eq_true_eq, utf8Cont] at hcond
                    tauto
                  obtain ⟨⟨hb1a, hb1b⟩, ⟨hb2a, hb2b⟩, ⟨hb3a, hb3b⟩, hF0⟩ := hg'
                  have hch : Char.ofNat (0x40000 * (b - 0xF0) + 0x1000 * (b1 - 0x80)
                      + 0x40 * (b2 - 0x80) + (b3 - 0x80)) ≠ 'Ã' := by
                    intro he
                    have hcp := char_ofNat_marker he
                    rcases Nat.lt_or_ge b 0xF1 with hbe | hbe
                    · have := hF0 (by omega)
                      omega
                    · omega
                  rw [List.count_cons_of_ne (Ne.symm hch), List.count_cons,
                    List.count_cons, List.count_cons, List.count_cons]
                  split_ifs <;> omega
              · rw [if_neg h5] at h
                exact Option.noConfusion h

theorem decodeUtf8_count_le (bs : List Nat) (cs : List Char)
    (h : decodeUtf8 bs = some cs) : cs.count 'Ã' ≤ bs.count 0xC3 := by
  have hd := duGo_count_le bs 0 cs h
  rw [List.drop_zero] at hd
  exact hd

theorem latin1Attempt_count_le {m f : List Char} (h : latin1Attempt m = some f) :
    f.count 'Ã' ≤ m.count 'Ã' := by
  unfold latin1Attempt at h
  rcases he : encodeLatin1 m with _ | bs
  · rw [he] at h; exact absurd h (by simp)
  · rw [he] at h
    simp only [Option.some_bind] at h
    exact le_trans (decodeUtf8_count_le bs f h) (encodeLatin1_count_marker m bs he)

theorem cp1252Attempt_count_le {m f : List Char} (h : cp1252Attempt m = some f) :
    f.count 'Ã' ≤ m.count 'Ã' := by
  unfold cp1252Attempt at h
  rcases he : encodeCp1252 m with _ | bs
  · rw [he] at h; exact absurd h (by simp)
  · rw [he] at h
    simp only [Option.some_bind] at h
    exact le_trans (decodeUtf8_count_le bs f h) (encodeCp1252_count_marker m bs he)

theorem fix_count_le (m : List Char) :
    (fix_remaining_mojibake m).count 'Ã' ≤ m.count 'Ã' := by
  unfold fix_remaining_mojibake
  rcases h1 : latin1Attempt m with _ | f
  · rcases h2 : cp1252Attempt m with _ | g
    · exact le_refl _
    · exact cp1252Attempt_count_le h2
  · exact latin1Attempt_count_le h1

theorem subGo_count_le :
    ∀ (s : List Char) (k : Nat), (subGo k s).count 'Ã' ≤ (s.drop k).count 'Ã' := by
  intro s
  induction s with
  | nil => intro k; simp [subGo_nil]
  | cons c rest ih =>
    intro k
    cases k with
    | succ k => rw [subGo_succ, List.drop_succ_cons]; exact ih k
    | zero =>
      rw [List.drop_zero]
      by_cases hc : c = 'Ã'
      · subst hc
        rcases hr : takeRun 20 rest with _ | ⟨r, run⟩
        · rw [subGo_zero_nomatch hr]
          have hih := ih 0
          rw [List.drop_zero] at hih
          simp only [List.count_cons]
          omega
        · rw [subGo_zero_match hr, List.count_append]
          have hfix := fix_count_le ('Ã' :: r :: run)
          have hih := ih (r :: run).length
          have hsplit : rest.count 'Ã' =
              (r :: run).count 'Ã' + (rest.drop (r :: run).length).count 'Ã' := by
            conv_lhs => rw [← takeRun_append_drop 20 rest]
            rw [hr, List.count_append]
          rw [List.count_cons] at hfix ⊢
          simp only [beq_self_eq_true, if_true] at hfix ⊢
          omega
      · rw [subGo_zero_other hc]
        have hih := ih 0
        rw [List.drop_zero] at hih
        simp only [List.count_cons]
        omega

/-! ## Claim theorems -/

theorem processFile_path (env : BatchEnv) (f : String) :
    (processFile env f).path = f := by
  unfold processFile
  rcases hr : env.readFile f with e | content
  · rfl
  · dsimp only
    rcases hf : env.fixText content with e | fixedContent
    · rfl
    · dsimp only
      by_cases hb : 0 < countMarker content.data
      · rw [if_pos hb]
        rcases hw : env.writeFile f fixedContent with e | u <;> rfl
      · rw [if_neg hb]
        rfl

/-- C1 (amended): for every entry of the `replacements` table except the final
world/apps key `"ÃƒÂ°Ã…Â¸Ã…â€™Ã‚Â "`, repairing a text consisting solely of
the key returns exactly the mapped value. -/
theorem repair_single_key :
    ∀ p ∈ replacements, p.1 ≠ "ÃƒÂ°Ã…Â¸Ã…â€™Ã‚Â " →
      repair replacements p.1.data = p.2.data := by decide

/-- Witness for C1 at the cheese entry. -/
theorem repair_single_key_witness :
    repair replacements "ÃƒÂ°Ã…Â¸Ã‚Â§Ã¢â€šÂ¬".data = "🧀".data :=
  repair_single_key ("ÃƒÂ°Ã…Â¸Ã‚Â§Ã¢â€šÂ¬", "🧀") (by decide) (by decide)

/-- C1 counterexample: the world/apps key is not repaired to its mapped value.
The globe key, an earlier entry of the table and a proper prefix of it, is
replaced first, so repair of the world/apps key yields the globe emoji
followed by the key's trailing space, not the bare emoji. -/
theorem repair_world_key_counterexample :
    ("ÃƒÂ°Ã…Â¸Ã…â€™Ã‚Â ", "🌐") ∈ replacements ∧
    repair replacements "ÃƒÂ°Ã…Â¸Ã…â€™Ã‚Â ".data = "🌐 ".data ∧
    repair replacements "ÃƒÂ°Ã…Â¸Ã…â€™Ã‚Â ".data ≠ "🌐".data :=
  ⟨by decide, by decide, by decide⟩

/-- C2 counterexample: repair is not idempotent.  The four-character text
`['Ã', 0x83, 'Æ', 0x92]` is repaired (latin-1 → UTF-8 re-decode of the regex
match) to `"Ãƒ"`, and a second repair re-decodes that (cp1252 → UTF-8) to
`"Ã"`. -/
theorem repair_not_idempotent :
    repair replacements (repair replacements "Ã\x83Æ\x92".data) ≠
      repair replacements "Ã\x83Æ\x92".data := by decide

/-- C2 (amended): repair is idempotent on every text whose repaired form
contains no residual marker `'Ã'`: every table key contains the marker and the
regex pattern starts with it, so neither pass can match again. -/
theorem repair_idempotent_of_no_marker (s : List Char)
    (h : 'Ã' ∉ repair replacements s) :
    repair replacements (repair replacements s) = repair replacements s := by
  have h1 : tablePass replacements (repair replacements s) = repair replacements s :=
    tablePass_eq_of_no_marker replacements _ (by decide) h
  show regexPass (tablePass replacements (repair replacements s)) = repair replacements s
  rw [h1]
  exact regexPass_eq_of_no_marker h

/-- Witness for the amended C2 on a text containing a repairable fragment
(the spec's Scenario 1 input). -/
theorem repair_idempotent_of_no_marker_witness :
    repair replacements (repair replacements "price: 5ÃƒÂ°Ã…Â¸Ã…Â¸Ã‚Â¢ok".data) =
      repair replacements "price: 5ÃƒÂ°Ã…Â¸Ã…Â¸Ã‚Â¢ok".data :=
  repair_idempotent_of_no_marker _ (by decide)

/-- C3: repair is total and never surfaces an error: in the exception-level
model, where every encode/decode step may raise and `re.sub` propagates any
exception of its replacement callback, repair returns `.ok` with the plain
result on every input text and for every table. -/
theorem repair_never_raises (table : List (String × String)) (s : List Char) :
    repairE table s = .ok (repair table s) :=
  subGoE_ok (tablePass table s) 0

/-- C4: the re-decode heuristic first attempts the latin-1-bytes-decoded-as-
UTF-8 reinterpretation; if that fails it attempts exactly one alternate
single-byte encoding, cp1252; if that also fails it returns the fragment
unchanged; and no exception propagates to the caller. -/
theorem fix_remaining_mojibake_policy (m : List Char) :
    (∀ f, latin1Attempt m = some f → fix_remaining_mojibake m = f) ∧
    (latin1Attempt m = none →
      ∀ g, cp1252Attempt m = some g → fix_remaining_mojibake m = g) ∧
    (latin1Attempt m = none → cp1252Attempt m = none →
      fix_remaining_mojibake m = m) ∧
    fix_remaining_mojibakeE m = .ok (fix_remaining_mojibake m) := by
  refine ⟨?_, ?_, ?_, fixE_ok m⟩
  · intro f hf
    unfold fix_remaining_mojibake
    rw [hf]
  · intro h1 g hg
    unfold fix_remaining_mojibake
    rw [h1, hg]
  · intro h1 h2
    unfold fix_remaining_mojibake
    rw [h1, h2]

/-- Witness for C4 on the fragment `"Ãƒ"`: the latin-1 attempt fails (`'ƒ'` is
not a latin-1 character), the cp1252 second attempt succeeds with `"Ã"`. -/
theorem fix_remaining_mojibake_policy_witness :
    fix_remaining_mojibake "Ãƒ".data = "Ã".data :=
  (fix_remaining_mojibake_policy "Ãƒ".data).2.1 (by decide) "Ã".data (by decide)

/-- C5: repair is a no-op on clean text: if no key of the table occurs as a
substring of the text and the marker `'Ã'` does not occur in it, repair
returns the text unchanged. -/
theorem repair_noop_on_clean (s : List Char)
    (hk : ∀ p ∈ replacements, ¬ (p.1.data <:+: s))
    (hm : 'Ã' ∉ s) : repair replacements s = s := by
  show regexPass (tablePass replacements s) = s
  rw [tablePass_eq_of_no_occurs replacements s
    (fun p hp => occurs_eq_false_of_not_substr (hk p hp))]
  exact regexPass_eq_of_no_marker hm

/-- Witness for C5 on a clean HTML-like text. -/
theorem repair_noop_on_clean_witness :
    repair replacements "hello <b>world</b>".data = "hello <b>world</b>".data :=
  repair_noop_on_clean _ (by decide) (by decide)

/-- C6: the table-driven substitution pass never lengthens the text: every
mapped value of `replacements` is no longer than its corrupted key, and the
pass only replaces occurrences of keys by their values. -/
theorem tablePass_length_le (s : List Char) :
    (tablePass replacements s).length ≤ s.length :=
  tablePass_length_le_gen replacements (by decide) s

/-- C7: each table entry is applied as one full pass over the whole blob that
replaces every occurrence of the key, not just the first: for every entry and
every text, the key occurs nowhere in the result of its `replaceAll` pass. -/
theorem table_replaces_all_occurrences :
    ∀ p ∈ replacements, ∀ s : List Char,
      occurs p.1.data (replaceAll p.1.data p.2.data s) = false := by
  have hside : ∀ p ∈ replacements,
      p.1.data ≠ [] ∧ p.2.data ≠ [] ∧ ∀ c ∈ p.2.data, c ∉ p.1.data := by decide
  intro p hp s
  obtain ⟨h1, h2, h3⟩ := hside p hp
  exact replaceAll_no_occurs h1 h2 h3 s

/-- Witness for C7: the cheese entry replaces both occurrences of its key. -/
theorem table_replaces_all_occurrences_witness :
    occurs "ÃƒÂ°Ã…Â¸Ã‚Â§Ã¢â€šÂ¬".data
      (replaceAll "ÃƒÂ°Ã…Â¸Ã‚Â§Ã¢â€šÂ¬".data "🧀".data
        "ÃƒÂ°Ã…Â¸Ã‚Â§Ã¢â€šÂ¬xÃƒÂ°Ã…Â¸Ã‚Â§Ã¢â€šÂ¬".data) = false :=
  table_replaces_all_occurrences ("ÃƒÂ°Ã…Â¸Ã‚Â§Ã¢â€šÂ¬", "🧀") (by decide) _

/-- C8: the concrete table satisfies the overlap invariant: whenever one key
is a substring of another (the same or a distinct one), the two entries map to
the same correct value. -/
theorem table_substring_keys_agree :
    ∀ p ∈ replacements, ∀ q ∈ replacements, p.1.data <:+: q.1.data → p.2 = q.2 := by
  have hocc : ∀ p ∈ replacements, ∀ q ∈ replacements,
      occurs p.1.data q.1.data = true → p.2 = q.2 := by decide
  have hne : ∀ p ∈ replacements, p.1.data ≠ [] := by decide
  intro p hp q hq hinf
  exact hocc p hp q hq (occurs_of_substr (hne p hp) hinf)

/-- Witness for C8 at the one genuine substring pair of the table: the globe
key is a proper prefix of the world/apps key, and both map to the same
value. -/
theorem table_substring_keys_agree_witness :
    ("🌐" : String) = "🌐" :=
  table_substring_keys_agree ("ÃƒÂ°Ã…Â¸Ã…â€™Ã‚Â", "🌐") (by decide)
    ("ÃƒÂ°Ã…Â¸Ã…â€™Ã‚Â ", "🌐") (by decide) ⟨[], [' '], by decide⟩

/-- C9: the batch loop of `fix_all_files.py` produces exactly one outcome per
file, in order, whatever the environment does: a read, fix, or write failure
on one file becomes that file's `failed` event and never aborts processing of
the subsequent files. -/
theorem batch_processes_every_file (env : BatchEnv) (files : List String) :
    (runBatch env files).map FileEvent.path = files := by
  induction files with
  | nil => rfl
  | cons f rest ih =>
    show (processFile env f).path :: (runBatch env rest).map FileEvent.path = f :: rest
    rw [ih, processFile_path]

/-- C10: the number of corruption markers `'Ã'` never increases under the full
repair transform: no replacement value contains the marker, and the re-decode
of a matched run yields at most as many markers as the run contained. -/
theorem repair_marker_count_le (s : List Char) :
    countMarker (repair replacements s) ≤ countMarker s := by
  have h1 : (tablePass replacements s).count 'Ã' ≤ s.count 'Ã' :=
    tablePass_count_le_gen replacements 'Ã' (by decide) s
  have h2 := subGo_count_le (tablePass replacements s) 0
  rw [List.drop_zero] at h2
  exact le_trans h2 h1

end Mojibake

